import Mathlib

/-!
Verification of `locust_compare.py` (radnov/Locust-Compare).

The script loads two Locust CSV reports, outer-joins them on the key columns
`Type` and `Name`, divides the current values of a requested column by the
previous ones, accumulates the ratios of every requested column into one
sequence, renders an HTML report, and exits with a three-way verdict on the
ratios against a threshold.

The embedding below models the data frames as lists of rows with rational
cell values, the pandas/numpy float division with its NaN and infinity cases
as an explicit value type, and `main` as an event trace recording file reads,
the report rendering and the final process exit.
-/

namespace LocustCompare

/-- One data row of a Locust CSV report: the two key columns `Type` and
`Name` (the script joins on them, line 31) and the numeric value the row
holds in each data column of the header. -/
structure Row where
  typ : String
  name : String
  val : String → ℚ

/-- A report as loaded by `pd.read_csv`: the header schema of data-column
names (besides `Type` and `Name`) and the data rows. -/
structure Report where
  columns : List String
  rows : List Row

/-- The composite join key `(Type, Name)`. -/
def key (r : Row) : String × String := (r.typ, r.name)

/-- A joined cell: `some` value when the row is present on that side of the
outer join, `none` (pandas fills `NaN`) when it is not. -/
def cell (o : Option Row) (col : String) : Option ℚ := o.map (fun r => r.val col)

/-- The result of a numpy float division of two finite-or-missing cells:
not-a-number, one of the two infinities, or a finite value. -/
inductive RVal where
  | nan : RVal
  | posInf : RVal
  | negInf : RVal
  | val : ℚ → RVal
deriving DecidableEq, Repr

/-- numpy float division as performed on line 33 (`new / old`): a missing
side propagates `NaN`; division by zero gives `±inf` for a nonzero numerator
and `NaN` for `0/0`; otherwise the exact quotient. -/
def ratioOf (c p : Option ℚ) : RVal :=
  match c, p with
  | none, _ => RVal.nan
  | some _, none => RVal.nan
  | some c, some p =>
    if p = 0 then (if c = 0 then RVal.nan else if 0 < c then RVal.posInf else RVal.negInf)
    else RVal.val (c / p)

/-- `pd.merge(new_df, old_df, on=[Type, Name], how=outer)` (line 31): every
current-report row is matched against all previous-report rows with the same
key; an unmatched current row keeps an empty previous side; previous rows
whose key never occurs in the current report are appended with an empty
current side. (The claims proved below do not depend on row order.) -/
def mergedRows (newRows oldRows : List Row) : List (Option Row × Option Row) :=
  (newRows.flatMap (fun r =>
    if (oldRows.filter (fun s => decide (key s = key r))).isEmpty then
      [(some r, (none : Option Row))]
    else
      (oldRows.filter (fun s => decide (key s = key r))).map (fun s => (some r, some s)))) ++
  ((oldRows.filter (fun s => !(newRows.any (fun r => decide (key r = key s))))).map
    (fun s => ((none : Option Row), some s)))

/-- The ratio column computed by `compare` for one requested column
(line 33): current value over previous value, row by row of the join. -/
def compareRatios (newR oldR : Report) (col : String) : List RVal :=
  (mergedRows newR.rows oldR.rows).map (fun pr => ratioOf (cell pr.1 col) (cell pr.2 col))

/-- Whether the column selection on line 32 succeeds: the merge suffixes a
column with `_new`/`_old` exactly when it appears in both schemas, so
`{col}_new` and `{col}_old` both exist iff `col` is a data column of both
reports. -/
def colOk (newR oldR : Report) (col : String) : Bool :=
  decide (col ∈ newR.columns) && decide (col ∈ oldR.columns)

/-- The pandas `KeyError` text raised by the selection on line 32 when the
suffixed columns are absent; it lists the missing labels, so it names the
requested column. -/
def keyErrorMsg (col : String) : String :=
  "[" ++ col ++ "_new, " ++ col ++ "_old] not in index"

/-- `LocustComparer.compare` for one column: reads aside, it either produces
the ratio sequence of the join or raises a `KeyError` naming the missing
suffixed columns. -/
def compare (newR oldR : Report) (col : String) : Except String (List RVal) :=
  if colOk newR oldR col then Except.ok (compareRatios newR oldR col)
  else Except.error (keyErrorMsg col)

/-- How the process terminates: `sys.exit()` (code 0, no message) or
`sys.exit(msg)` (message printed, code 1). -/
inductive ExitStatus where
  | exitOk : ExitStatus
  | exitMsg : String → ExitStatus
deriving DecidableEq, Repr

/-- The process exit code of a `sys.exit` call. -/
def exitCode : ExitStatus → ℕ
  | ExitStatus.exitOk => 0
  | ExitStatus.exitMsg _ => 1

/-- The error message printed by a `sys.exit` call, if any. -/
def messageOf : ExitStatus → Option String
  | ExitStatus.exitOk => none
  | ExitStatus.exitMsg m => some m

/-- The message of the second branch of `validate` (line 55). -/
def failMsg : String := "Some of the requests are above the given threshold factor!"

/-- The message of the third branch of `validate` (line 57). -/
def errMsg : String := "An error occurred!"

/-- Python `result <= threshold` on a float ratio: false for `NaN` and
`+inf`, true for `-inf`, the rational comparison otherwise. -/
def rleq (r : RVal) (t : ℚ) : Bool :=
  match r with
  | RVal.nan => false
  | RVal.posInf => false
  | RVal.negInf => true
  | RVal.val q => decide (q ≤ t)

/-- Python `result > threshold` on a float ratio: false for `NaN` and
`-inf`, true for `+inf`, the rational comparison otherwise. -/
def rgt (r : RVal) (t : ℚ) : Bool :=
  match r with
  | RVal.nan => false
  | RVal.posInf => true
  | RVal.negInf => false
  | RVal.val q => decide (t < q)

/-- `LocustComparer.validate` (lines 49-57): all ratios at or below the
threshold exits cleanly, any ratio above it exits with the threshold
message, and otherwise the fallback message is used. -/
def validate (results : List RVal) (t : ℚ) : ExitStatus :=
  if results.all (fun r => rleq r t) then ExitStatus.exitOk
  else if results.any (fun r => rgt r t) then ExitStatus.exitMsg failMsg
  else ExitStatus.exitMsg errMsg

/-- The observable events of one run of `main`: a `read_csv` of the current
or the previous file, the HTML report rendering, and the process exit. -/
inductive Ev where
  | readCurrent : Ev
  | readPrevious : Ev
  | render : Ev
  | procExit : ℕ → Option String → Ev
deriving DecidableEq, Repr

/-- The exit event produced by a `sys.exit` call. -/
def exitEv (s : ExitStatus) : Ev := Ev.procExit (exitCode s) (messageOf s)

/-- The inputs of one invocation: the two parsed reports, the requested
column names (`--column-name` already split on `;`, line 103) and the
threshold. -/
structure Config where
  previous : Report
  current : Report
  columns : List String
  threshold : ℚ

/-- The loop of `main` (lines 103-108): each `compare` call first reads the
current then the previous file (lines 28-29); a `KeyError` aborts the
process with code 1 and the error text; after the last column the report is
rendered and `validate` decides the exit. -/
def mainLoop (newR oldR : Report) (t : ℚ) : List String → List RVal → List Ev
  | [], acc => [Ev.render, exitEv (validate acc t)]
  | c :: cs, acc =>
    Ev.readCurrent :: Ev.readPrevious ::
      (match compare newR oldR c with
       | Except.ok rs => mainLoop newR oldR t cs (acc ++ rs)
       | Except.error m => [Ev.procExit 1 (some m)])

/-- The event trace of one `main` invocation. -/
def mainTrace (cfg : Config) : List Ev :=
  mainLoop cfg.current cfg.previous cfg.threshold cfg.columns []

/-- The concatenated ratio sequence `main` hands to `validate`: the ratios
of every requested column, in order (line 104). -/
def allRatios (cfg : Config) : List RVal :=
  cfg.columns.flatMap (fun c => compareRatios cfg.current cfg.previous c)

/-- Recognizes a read of the previous report file. -/
def isReadPrevious : Ev → Bool
  | Ev.readPrevious => true
  | _ => false

/-- Recognizes a read of the current report file. -/
def isReadCurrent : Ev → Bool
  | Ev.readCurrent => true
  | _ => false

/-- The key set of a report side. -/
def keysOf (rs : List Row) : Finset (String × String) := (rs.map key).toFinset

/-- A concrete two-column invocation over header-only reports, used to
check the per-column read behaviour. -/
def c8cfg : Config := ⟨⟨["a", "b"], []⟩, ⟨["a", "b"], []⟩, ["a", "b"], 1⟩

/-- Above the threshold excludes at-or-below: `rgt` implies not `rleq` on
every float value, and NaN satisfies neither. -/
lemma rleq_eq_false_of_rgt (r : RVal) (t : ℚ) (h : rgt r t = true) : rleq r t = false := by
  cases r with
  | nan => rfl
  | posInf => rfl
  | negInf => cases h
  | val q =>
    simp only [rgt, decide_eq_true_eq] at h
    simp [rleq, not_le.mpr h]

example : ratioOf (some 50) (some 0) = RVal.posInf := by decide
example : ratioOf (some 0) (some 0) = RVal.nan := by decide
example : ratioOf none (some 3) = RVal.nan := by decide
example : ratioOf (some 150) (some 100) = RVal.val (3 / 2) := by
  simp [ratioOf]
  norm_num
example : validate [] 1 = ExitStatus.exitOk := by decide
example : validate [RVal.nan] 1 = ExitStatus.exitMsg errMsg := by decide
example : validate [RVal.val 1, RVal.posInf] 1 = ExitStatus.exitMsg failMsg := by decide
example :
    compareRatios ⟨["v"], [⟨"Req", "login", fun _ => 150⟩]⟩
      ⟨["v"], [⟨"Req", "login", fun _ => 100⟩]⟩ "v" = [RVal.val (3 / 2)] := by
  simp [compareRatios, mergedRows, cell, key, ratioOf]
  norm_num
example :
    mainTrace ⟨⟨["a"], []⟩, ⟨["a"], []⟩, ["a"], 1⟩ =
      [Ev.readCurrent, Ev.readPrevious, Ev.render, Ev.procExit 0 none] := by decide

/-- Any ratio above the threshold forces the failure branch of `validate`,
because it also falsifies the all-at-or-below condition. -/
lemma validate_fail_of_exists_gt (rs : List RVal) (t : ℚ)
    (h : ∃ r ∈ rs, rgt r t = true) : validate rs t = ExitStatus.exitMsg failMsg := by
  have h2 : rs.any (fun r => rgt r t) = true := List.any_eq_true.mpr h
  have h1 : rs.all (fun r => rleq r t) = false := by
    cases hb : rs.all (fun r => rleq r t) with
    | false => rfl
    | true =>
      obtain ⟨r, hr, hgt⟩ := h
      have hx := List.all_eq_true.mp hb r hr
      rw [rleq_eq_false_of_rgt r t hgt] at hx
      cases hx
  simp [validate, h1, h2]

/-- When every requested column is present in both schemas, the main loop
performs only file reads, then renders the report, then exits with the
verdict `validate` assigns to the accumulated ratios followed by those of
the remaining columns. -/
lemma mainLoop_ok (newR oldR : Report) (t : ℚ) (cols : List String) :
    ∀ acc : List RVal, (∀ c ∈ cols, colOk newR oldR c = true) →
      ∃ reads : List Ev, (∀ e ∈ reads, e = Ev.readCurrent ∨ e = Ev.readPrevious) ∧
        mainLoop newR oldR t cols acc =
          reads ++ [Ev.render,
            exitEv (validate
              (acc ++ cols.flatMap (fun c => compareRatios newR oldR c)) t)] := by
  induction cols with
  | nil =>
    intro acc h
    exact ⟨[], by simp, by simp [mainLoop]⟩
  | cons c cs ih =>
    intro acc h
    have hc : colOk newR oldR c = true := h c (by simp)
    obtain ⟨reads, hr, heq⟩ := ih (acc ++ compareRatios newR oldR c)
      (fun d hd => h d (by simp [hd]))
    refine ⟨Ev.readCurrent :: Ev.readPrevious :: reads, ?_, ?_⟩
    · intro e he
      rcases List.mem_cons.mp he with rfl | he
      · exact Or.inl rfl
      rcases List.mem_cons.mp he with rfl | he
      · exact Or.inr rfl
      exact hr e he
    · have hstep : mainLoop newR oldR t (c :: cs) acc =
          Ev.readCurrent :: Ev.readPrevious ::
            mainLoop newR oldR t cs (acc ++ compareRatios newR oldR c) := by
        simp [mainLoop, compare, hc]
      rw [hstep, heq]
      simp [List.append_assoc]

/-- The trace of a run in which every requested column is present in both
reports: reads, then the rendering, then the exit `validate` chooses for
the concatenated ratio sequence. -/
lemma mainTrace_ok (cfg : Config)
    (h : ∀ c ∈ cfg.columns, colOk cfg.current cfg.previous c = true) :
    ∃ reads : List Ev, (∀ e ∈ reads, e = Ev.readCurrent ∨ e = Ev.readPrevious) ∧
      mainTrace cfg =
        reads ++ [Ev.render, exitEv (validate (allRatios cfg) cfg.threshold)] := by
  obtain ⟨reads, hr, heq⟩ :=
    mainLoop_ok cfg.current cfg.previous cfg.threshold cfg.columns [] h
  exact ⟨reads, hr, by simpa [mainTrace, allRatios] using heq⟩

/-- When some requested column is missing from one of the schemas, the run
aborts on the first such column: the trace ends in an exit with code 1
carrying the `KeyError` text, and the report is never rendered. -/
lemma mainLoop_missing (newR oldR : Report) (t : ℚ) (cols : List String) :
    ∀ acc : List RVal, (∃ c ∈ cols, colOk newR oldR c = false) →
      ∃ (pre : List Ev) (c : String), c ∈ cols ∧ colOk newR oldR c = false ∧
        mainLoop newR oldR t cols acc = pre ++ [Ev.procExit 1 (some (keyErrorMsg c))] ∧
        Ev.render ∉ mainLoop newR oldR t cols acc := by
  induction cols with
  | nil =>
    intro acc h
    simp at h
  | cons c cs ih =>
    intro acc h
    cases hc : colOk newR oldR c with
    | false =>
      have hstep : mainLoop newR oldR t (c :: cs) acc =
          [Ev.readCurrent, Ev.readPrevious, Ev.procExit 1 (some (keyErrorMsg c))] := by
        simp [mainLoop, compare, hc]
      refine ⟨[Ev.readCurrent, Ev.readPrevious], c, by simp, hc, by simp [hstep], ?_⟩
      rw [hstep]
      intro hmem
      rcases List.mem_cons.mp hmem with h1 | hmem
      · simp at h1
      rcases List.mem_cons.mp hmem with h1 | hmem
      · simp at h1
      rcases List.mem_cons.mp hmem with h1 | hmem
      · simp at h1
      simp at hmem
    | true =>
      have hcs : ∃ d ∈ cs, colOk newR oldR d = false := by
        obtain ⟨d, hd, hdf⟩ := h
        rcases List.mem_cons.mp hd with rfl | hd2
        · rw [hc] at hdf
          cases hdf
        · exact ⟨d, hd2, hdf⟩
      obtain ⟨pre, d, hdmem, hdf, heq, hnr⟩ :=
        ih (acc ++ compareRatios newR oldR c) hcs
      have hstep : mainLoop newR oldR t (c :: cs) acc =
          Ev.readCurrent :: Ev.readPrevious ::
            mainLoop newR oldR t cs (acc ++ compareRatios newR oldR c) := by
        simp [mainLoop, compare, hc]
      refine ⟨Ev.readCurrent :: Ev.readPrevious :: pre, d,
        List.mem_cons_of_mem _ hdmem, hdf, ?_, ?_⟩
      · rw [hstep, heq]
        simp
      · rw [hstep]
        intro hmem
        rcases List.mem_cons.mp hmem with h1 | hmem
        · simp at h1
        rcases List.mem_cons.mp hmem with h1 | hmem
        · simp at h1
        exact hnr hmem

/-- C1: `validate` implements the exact three-way verdict policy on the
concatenated ratio sequence: all ratios at or below the threshold exits with
code 0 and no message; otherwise a ratio above the threshold exits non-zero
with the threshold-exceeded message; otherwise the fallback message is used
with a non-zero exit. The three cases are stated with the negations of the
earlier conditions, so exactly one disjunct holds for every input. -/
theorem c1_validate_trichotomy (rs : List RVal) (t : ℚ) :
    ((∀ r ∈ rs, rleq r t = true) ∧ validate rs t = ExitStatus.exitOk ∧
        exitCode (validate rs t) = 0 ∧ messageOf (validate rs t) = none) ∨
      ((¬ ∀ r ∈ rs, rleq r t = true) ∧ (∃ r ∈ rs, rgt r t = true) ∧
        validate rs t = ExitStatus.exitMsg failMsg ∧ exitCode (validate rs t) ≠ 0) ∨
      ((¬ ∀ r ∈ rs, rleq r t = true) ∧ (¬ ∃ r ∈ rs, rgt r t = true) ∧
        validate rs t = ExitStatus.exitMsg errMsg ∧ exitCode (validate rs t) ≠ 0) := by
  cases ha : rs.all (fun r => rleq r t) with
  | true =>
    left
    have hv : validate rs t = ExitStatus.exitOk := by simp [validate, ha]
    exact ⟨List.all_eq_true.mp ha, hv, by simp [hv, exitCode], by simp [hv, messageOf]⟩
  | false =>
    have h1 : ¬ ∀ r ∈ rs, rleq r t = true := by
      intro h
      rw [List.all_eq_true.mpr h] at ha
      cases ha
    cases hb : rs.any (fun r => rgt r t) with
    | true =>
      right; left
      have hv : validate rs t = ExitStatus.exitMsg failMsg := by simp [validate, ha, hb]
      exact ⟨h1, List.any_eq_true.mp hb, hv, by simp [hv, exitCode]⟩
    | false =>
      right; right
      have h2 : ¬ ∃ r ∈ rs, rgt r t = true := by
        intro h
        rw [List.any_eq_true.mpr h] at hb
        cases hb
      have hv : validate rs t = ExitStatus.exitMsg errMsg := by simp [validate, ha, hb]
      exact ⟨h1, h2, hv, by simp [hv, exitCode]⟩

/-- C4: a ratio exactly equal to the threshold is passing: when it is the
only ratio, `validate` takes the first branch (`<=`, not `<`) and the
process exits with code 0. -/
theorem c4_threshold_boundary (t : ℚ) :
    validate [RVal.val t] t = ExitStatus.exitOk ∧
      exitCode (validate [RVal.val t] t) = 0 := by
  have h : validate [RVal.val t] t = ExitStatus.exitOk := by simp [validate, rleq]
  exact ⟨h, by simp [h, exitCode]⟩

/-- C9: an empty concatenated ratio sequence makes the first branch of
`validate` hold vacuously, so a run over two reports with no data rows
renders the report and exits with code 0 rather than being routed to the
fallback branch. -/
theorem c9_empty_reports_pass (t : ℚ) (newR oldR : Report) (col : String)
    (hnew : newR.rows = []) (hold : oldR.rows = [])
    (hcol : colOk newR oldR col = true) :
    validate [] t = ExitStatus.exitOk ∧
      mainTrace ⟨oldR, newR, [col], t⟩ =
        [Ev.readCurrent, Ev.readPrevious, Ev.render, Ev.procExit 0 none] := by
  constructor
  · simp [validate]
  · simp [mainTrace, mainLoop, compare, hcol, compareRatios, mergedRows, hnew, hold,
      exitEv, validate, exitCode, messageOf]

/-- Witness for C9 at two concrete header-only reports. -/
theorem c9_empty_reports_pass_witness :
    validate [] 1 = ExitStatus.exitOk ∧
      mainTrace ⟨⟨["v"], []⟩, ⟨["v"], []⟩, ["v"], 1⟩ =
        [Ev.readCurrent, Ev.readPrevious, Ev.render, Ev.procExit 0 none] :=
  c9_empty_reports_pass 1 ⟨["v"], []⟩ ⟨["v"], []⟩ "v" rfl rfl (by decide)

/-- C2 fails as stated: a row whose previous value is 0 and whose current
value is 50 does not produce a NaN ratio — numpy division by zero gives
`+inf`, which is greater than the threshold, so `validate` reports the
threshold-exceeded failure rather than the inconclusive fallback. -/
theorem c2_counterexample :
    compareRatios ⟨["v"], [⟨"Req", "login", fun _ => 50⟩]⟩
        ⟨["v"], [⟨"Req", "login", fun _ => 0⟩]⟩ "v" = [RVal.posInf] ∧
      RVal.posInf ≠ RVal.nan ∧
      validate [RVal.posInf] 1 = ExitStatus.exitMsg failMsg := by
  refine ⟨by decide, by decide, by decide⟩

/-- C2 amended: a row present in only one report gives a NaN ratio, and so
does previous 0 with current 0; but previous 0 with current `c ≠ 0` gives
`±inf` (`+inf` when `0 < c`). NaN satisfies neither `<=` nor `>` against
the threshold, a nonempty all-NaN sequence yields the fallback message, a
sequence with every ratio at or below the threshold exits cleanly, and any
ratio above the threshold yields the threshold-exceeded message even when
other ratios are NaN or passing. -/
theorem c2_amended_nan_policy (t c : ℚ) (rs : List RVal) :
    (∀ (x : Option ℚ) (col : String), ratioOf (cell none col) x = RVal.nan) ∧
      (∀ (x : Option ℚ) (col : String), ratioOf x (cell none col) = RVal.nan) ∧
      ratioOf (some 0) (some 0) = RVal.nan ∧
      (c ≠ 0 → ratioOf (some c) (some 0) =
        (if 0 < c then RVal.posInf else RVal.negInf)) ∧
      (rleq RVal.nan t = false ∧ rgt RVal.nan t = false) ∧
      (rs ≠ [] → (∀ r ∈ rs, r = RVal.nan) →
        validate rs t = ExitStatus.exitMsg errMsg) ∧
      ((∀ r ∈ rs, rleq r t = true) → validate rs t = ExitStatus.exitOk) ∧
      ((∃ r ∈ rs, rgt r t = true) → validate rs t = ExitStatus.exitMsg failMsg) := by
  refine ⟨fun x col => rfl, fun x col => ?_, by decide, fun hc => ?_, ⟨rfl, rfl⟩, ?_, ?_, ?_⟩
  · cases x <;> rfl
  · simp [ratioOf, hc]
  · intro hne hall
    have h1 : rs.all (fun r => rleq r t) = false := by
      cases rs with
      | nil => cases hne rfl
      | cons a as => simp [hall a (by simp), rleq]
    have h2 : rs.any (fun r => rgt r t) = false := by
      cases hb : rs.any (fun r => rgt r t) with
      | false => rfl
      | true =>
        obtain ⟨r, hr, hgt⟩ := List.any_eq_true.mp hb
        rw [hall r hr] at hgt
        cases hgt
    simp [validate, h1, h2]
  · intro h
    simp [validate, List.all_eq_true.mpr h]
  · intro h
    have h2 : rs.any (fun r => rgt r t) = true := List.any_eq_true.mpr h
    have h1 : rs.all (fun r => rleq r t) = false := by
      cases hb : rs.all (fun r => rleq r t) with
      | false => rfl
      | true =>
        obtain ⟨r, hr, hgt⟩ := h
        have := List.all_eq_true.mp hb r hr
        rw [rleq_eq_false_of_rgt r t hgt] at this
        cases this
    simp [validate, h1, h2]

/-- Witness for C2's amended claim at concrete values. -/
theorem c2_amended_nan_policy_witness :
    ratioOf (cell none "v") (some 5) = RVal.nan ∧
      ratioOf (some 50) (some 0) = RVal.posInf ∧
      validate [RVal.nan] 1 = ExitStatus.exitMsg errMsg ∧
      validate [RVal.val 1, RVal.nan, RVal.posInf] 1 = ExitStatus.exitMsg failMsg := by
  have h := c2_amended_nan_policy 1 50 [RVal.nan]
  have h2 := c2_amended_nan_policy 1 50 [RVal.val 1, RVal.nan, RVal.posInf]
  refine ⟨h.1 (some 5) "v", ?_, ?_, ?_⟩
  · have hi := h.2.2.2.1 (by norm_num)
    have h50 : (0 : ℚ) < 50 := by norm_num
    rw [if_pos h50] at hi
    exact hi
  · exact h.2.2.2.2.2.1 (by decide) (by decide)
  · exact h2.2.2.2.2.2.2.2 ⟨RVal.posInf, by decide, by decide⟩

/-- C3: on two single-row reports sharing the key with previous value
`fp col ≠ 0` and current value `fc col`, `compare` yields exactly the ratio
current over previous. -/
theorem c3_single_row_exact_quotient (T N : String) (fc fp : String → ℚ) (col : String)
    (newR oldR : Report)
    (hnew : newR.rows = [⟨T, N, fc⟩]) (hold : oldR.rows = [⟨T, N, fp⟩])
    (hcol : colOk newR oldR col = true) (hp : fp col ≠ 0) :
    compare newR oldR col = Except.ok [RVal.val (fc col / fp col)] := by
  simp [compare, hcol, compareRatios, hnew, hold, mergedRows, key, cell, ratioOf, hp]

/-- Witness for C3 at the spec's scenario: previous 100, current 150. -/
theorem c3_single_row_exact_quotient_witness :
    compare ⟨["v"], [⟨"Req", "login", fun _ => 150⟩]⟩
        ⟨["v"], [⟨"Req", "login", fun _ => 100⟩]⟩ "v" =
      Except.ok [RVal.val (150 / 100)] :=
  c3_single_row_exact_quotient "Req" "login" (fun _ => (150 : ℚ)) (fun _ => (100 : ℚ)) "v"
    ⟨["v"], [⟨"Req", "login", fun _ => 150⟩]⟩
    ⟨["v"], [⟨"Req", "login", fun _ => 100⟩]⟩
    rfl rfl (by decide) (by norm_num)

/-- A flatMap in which every element contributes exactly one row has the
length of its base list. -/
lemma length_flatMap_of_forall_one {α β : Type} (l : List α) (f : α → List β)
    (h : ∀ a ∈ l, (f a).length = 1) : (l.flatMap f).length = l.length := by
  induction l with
  | nil => simp
  | cons a as ih =>
    simp only [List.flatMap_cons, List.length_append, List.length_cons]
    rw [h a (by simp), ih (fun b hb => h b (by simp [hb]))]
    omega

/-- No previous row matches a key that does not occur in the previous
report. -/
lemma filter_key_eq_nil (oldRows : List Row) (r : Row)
    (h : key r ∉ oldRows.map key) :
    oldRows.filter (fun s => decide (key s = key r)) = [] := by
  rw [List.filter_eq_nil_iff]
  intro s hs hsk
  rw [decide_eq_true_eq] at hsk
  apply h
  rw [← hsk]
  exact List.mem_map_of_mem key hs

/-- With unique previous keys, exactly one previous row matches a key that
does occur in the previous report. -/
lemma filter_key_length_one (oldRows : List Row) (hB : (oldRows.map key).Nodup)
    (r : Row) (hmem : key r ∈ oldRows.map key) :
    (oldRows.filter (fun s => decide (key s = key r))).length = 1 := by
  induction oldRows with
  | nil => simp at hmem
  | cons s ss ih =>
    rw [List.map_cons, List.nodup_cons] at hB
    obtain ⟨hs, hss⟩ := hB
    rw [List.map_cons, List.mem_cons] at hmem
    rw [List.filter_cons]
    by_cases hk : key s = key r
    · rw [if_pos (decide_eq_true hk)]
      have h0 : ss.filter (fun x => decide (key x = key r)) = [] :=
        filter_key_eq_nil ss r (by rw [← hk]; exact hs)
      simp [h0]
    · rw [if_neg (by simpa using hk)]
      rcases hmem with h1 | h1
      · exact absurd h1.symm hk
      · exact ih hss h1

/-- Every current row contributes exactly one joined row when the previous
keys are unique. -/
lemma mergedRow_contribution_length (oldRows : List Row)
    (hB : (oldRows.map key).Nodup) (r : Row) :
    (if (oldRows.filter (fun s => decide (key s = key r))).isEmpty then
        [(some r, (none : Option Row))]
      else
        (oldRows.filter (fun s => decide (key s = key r))).map
          (fun s => (some r, some s))).length = 1 := by
  by_cases hmem : key r ∈ oldRows.map key
  · have h1 := filter_key_length_one oldRows hB r hmem
    cases hf : oldRows.filter (fun s => decide (key s = key r)) with
    | nil =>
      rw [hf] at h1
      simp at h1
    | cons a l =>
      rw [hf] at h1
      simp only [List.length_cons] at h1
      have hl : l = [] := List.length_eq_zero.mp (by omega)
      subst hl
      simp
  · have h0 := filter_key_eq_nil oldRows r hmem
    rw [h0]
    simp

/-- The appended previous-only block of the join has as many rows as there
are previous keys outside the current key set. -/
lemma filter_unmatched_length (newRows oldRows : List Row)
    (hB : (oldRows.map key).Nodup) :
    (oldRows.filter
        (fun s => !(newRows.any (fun r => decide (key r = key s))))).length =
      (keysOf oldRows \ keysOf newRows).card := by
  induction oldRows with
  | nil => simp [keysOf]
  | cons s ss ih =>
    rw [List.map_cons, List.nodup_cons] at hB
    obtain ⟨hs, hss⟩ := hB
    have hkeys : keysOf (s :: ss) = insert (key s) (keysOf ss) := by
      rw [keysOf, List.map_cons, List.toFinset_cons]
      rfl
    rw [List.filter_cons]
    by_cases hmem : key s ∈ keysOf newRows
    · have hany : (newRows.any (fun r => decide (key r = key s))) = true := by
        rw [List.any_eq_true]
        rw [keysOf, List.mem_toFinset, List.mem_map] at hmem
        obtain ⟨r, hr, hrk⟩ := hmem
        exact ⟨r, hr, by rw [decide_eq_true_eq, hrk]⟩
      rw [if_neg (by simp [hany])]
      rw [ih hss, hkeys, Finset.insert_sdiff_of_mem _ hmem]
    · have hany : (newRows.any (fun r => decide (key r = key s))) = false := by
        rw [List.any_eq_false]
        intro r hr hrk
        rw [decide_eq_true_eq] at hrk
        apply hmem
        rw [keysOf, List.mem_toFinset, List.mem_map]
        exact ⟨r, hr, hrk⟩
      rw [if_pos (by simp [hany])]
      rw [List.length_cons, ih hss, hkeys,
        Finset.insert_sdiff_of_not_mem _ hmem,
        Finset.card_insert_of_not_mem]
      intro hcon
      rw [Finset.mem_sdiff, keysOf, List.mem_toFinset] at hcon
      exact hs hcon.1

/-- C5: with unique keys on each side, the join of lines 31-33 is a full
outer join on `(Type, Name)`: the joined row count is the cardinality of
the union of the two key sets; no joined row is empty on both sides; a key
present in both reports contributes a row holding both rows; a key unique
to one side contributes a row whose other side is missing (and a missing
side selects an undefined cell while a present side selects its value),
rather than raising an error. -/
theorem c5_outer_join_completeness (newRows oldRows : List Row)
    (hA : (newRows.map key).Nodup) (hB : (oldRows.map key).Nodup) :
    (mergedRows newRows oldRows).length = (keysOf newRows ∪ keysOf oldRows).card ∧
      (∀ p ∈ mergedRows newRows oldRows, p.1.isSome ∨ p.2.isSome) ∧
      (∀ k, k ∈ keysOf newRows → k ∈ keysOf oldRows →
        ∃ r s, (some r, some s) ∈ mergedRows newRows oldRows ∧
          key r = k ∧ key s = k) ∧
      (∀ r ∈ newRows, key r ∉ keysOf oldRows →
        (some r, (none : Option Row)) ∈ mergedRows newRows oldRows) ∧
      (∀ s ∈ oldRows, key s ∉ keysOf newRows →
        ((none : Option Row), some s) ∈ mergedRows newRows oldRows) ∧
      (∀ (r : Row) (col : String),
        cell (some r) col = some (r.val col) ∧ cell (none : Option Row) col = none) := by
  refine ⟨?_, ?_, ?_, ?_, ?_, fun r col => ⟨rfl, rfl⟩⟩
  · rw [mergedRows, List.length_append, List.length_map]
    rw [length_flatMap_of_forall_one _ _
      (fun r _ => mergedRow_contribution_length oldRows hB r)]
    rw [filter_unmatched_length newRows oldRows hB]
    have hcardA : (keysOf newRows).card = newRows.length := by
      rw [keysOf, List.toFinset_card_of_nodup hA, List.length_map]
    rw [← hcardA, Finset.union_comm, ← Finset.card_sdiff_add_card]
    omega
  · intro p hp
    rw [mergedRows, List.mem_append] at hp
    rcases hp with hp | hp
    · rw [List.mem_flatMap] at hp
      obtain ⟨r, _, hpr⟩ := hp
      by_cases he : (oldRows.filter (fun s => decide (key s = key r))).isEmpty = true
      · rw [if_pos he] at hpr
        rw [List.mem_singleton] at hpr
        rw [hpr]
        exact Or.inl rfl
      · rw [if_neg he] at hpr
        rw [List.mem_map] at hpr
        obtain ⟨s, _, hps⟩ := hpr
        rw [← hps]
        exact Or.inl rfl
    · rw [List.mem_map] at hp
      obtain ⟨s, _, hps⟩ := hp
      rw [← hps]
      exact Or.inr rfl
  · intro k hkA hkB
    rw [keysOf, List.mem_toFinset, List.mem_map] at hkA hkB
    obtain ⟨r, hr, hrk⟩ := hkA
    obtain ⟨s, hs, hsk⟩ := hkB
    refine ⟨r, s, ?_, hrk, hsk⟩
    have hsf : s ∈ oldRows.filter (fun x => decide (key x = key r)) := by
      rw [List.mem_filter]
      exact ⟨hs, by rw [decide_eq_true_eq, hsk, hrk]⟩
    have hne : (oldRows.filter (fun x => decide (key x = key r))).isEmpty = false := by
      cases hf : oldRows.filter (fun x => decide (key x = key r)) with
      | nil =>
        rw [hf] at hsf
        cases hsf
      | cons a l => rfl
    rw [mergedRows, List.mem_append]
    left
    rw [List.mem_flatMap]
    refine ⟨r, hr, ?_⟩
    rw [if_neg (by simp [hne])]
    exact List.mem_map_of_mem _ hsf
  · intro r hr hkB
    rw [keysOf, List.mem_toFinset] at hkB
    have h0 := filter_key_eq_nil oldRows r hkB
    rw [mergedRows, List.mem_append]
    left
    rw [List.mem_flatMap]
    refine ⟨r, hr, ?_⟩
    rw [h0]
    simp
  · intro s hs hkA
    rw [keysOf, List.mem_toFinset] at hkA
    rw [mergedRows, List.mem_append]
    right
    rw [List.mem_map]
    refine ⟨s, ?_, rfl⟩
    rw [List.mem_filter]
    refine ⟨hs, ?_⟩
    rw [Bool.not_eq_true', List.any_eq_false]
    intro r hr hrk
    rw [decide_eq_true_eq] at hrk
    apply hkA
    rw [← hrk]
    exact List.mem_map_of_mem key hr

/-- Witness for C5 at the spec's scenario: previous report with one row
`A`, current report with rows `A` and `B`. -/
theorem c5_outer_join_completeness_witness :
    (mergedRows [⟨"Req", "A", fun _ => 10⟩, ⟨"Req", "B", fun _ => 20⟩]
          [⟨"Req", "A", fun _ => 10⟩]).length =
        (keysOf [⟨"Req", "A", fun _ => 10⟩, ⟨"Req", "B", fun _ => 20⟩] ∪
          keysOf [⟨"Req", "A", fun _ => 10⟩]).card ∧
      (∀ p ∈ mergedRows [⟨"Req", "A", fun _ => 10⟩, ⟨"Req", "B", fun _ => 20⟩]
          [⟨"Req", "A", fun _ => 10⟩], p.1.isSome ∨ p.2.isSome) ∧
      (∀ k, k ∈ keysOf [⟨"Req", "A", fun _ => 10⟩, ⟨"Req", "B", fun _ => 20⟩] →
        k ∈ keysOf [⟨"Req", "A", fun _ => 10⟩] →
        ∃ r s, (some r, some s) ∈
            mergedRows [⟨"Req", "A", fun _ => 10⟩, ⟨"Req", "B", fun _ => 20⟩]
              [⟨"Req", "A", fun _ => 10⟩] ∧
          key r = k ∧ key s = k) ∧
      (∀ r ∈ [⟨"Req", "A", fun _ => 10⟩, ⟨"Req", "B", fun _ => 20⟩],
        key r ∉ keysOf [⟨"Req", "A", fun _ => 10⟩] →
        (some r, (none : Option Row)) ∈
          mergedRows [⟨"Req", "A", fun _ => 10⟩, ⟨"Req", "B", fun _ => 20⟩]
            [⟨"Req", "A", fun _ => 10⟩]) ∧
      (∀ s ∈ [⟨"Req", "A", fun _ => 10⟩],
        key s ∉ keysOf [⟨"Req", "A", fun _ => 10⟩, ⟨"Req", "B", fun _ => 20⟩] →
        ((none : Option Row), some s) ∈
          mergedRows [⟨"Req", "A", fun _ => 10⟩, ⟨"Req", "B", fun _ => 20⟩]
            [⟨"Req", "A", fun _ => 10⟩]) ∧
      (∀ (r : Row) (col : String),
        cell (some r) col = some (r.val col) ∧ cell (none : Option Row) col = none) :=
  c5_outer_join_completeness
    [⟨"Req", "A", fun _ => 10⟩, ⟨"Req", "B", fun _ => 20⟩]
    [⟨"Req", "A", fun _ => 10⟩] (by decide) (by decide)

/-- C6: the ratios of every `;`-separated column are concatenated into one
sequence and a single verdict is computed over all of them: if any listed
column contributes a ratio above the threshold, the run exits with the
threshold-exceeded message even when the other columns pass. -/
theorem c6_multi_column_aggregation (cfg : Config)
    (h : ∀ c ∈ cfg.columns, colOk cfg.current cfg.previous c = true)
    (hfail : ∃ c ∈ cfg.columns,
      ∃ r ∈ compareRatios cfg.current cfg.previous c, rgt r cfg.threshold = true) :
    validate (allRatios cfg) cfg.threshold = ExitStatus.exitMsg failMsg ∧
      ∃ reads : List Ev,
        mainTrace cfg = reads ++ [Ev.render, Ev.procExit 1 (some failMsg)] := by
  have hex : ∃ r ∈ allRatios cfg, rgt r cfg.threshold = true := by
    obtain ⟨c, hc, r, hr, hgt⟩ := hfail
    exact ⟨r, List.mem_flatMap.mpr ⟨c, hc, hr⟩, hgt⟩
  have hv := validate_fail_of_exists_gt (allRatios cfg) cfg.threshold hex
  obtain ⟨reads, _, heq⟩ := mainTrace_ok cfg h
  refine ⟨hv, reads, ?_⟩
  rw [heq, hv]
  rfl

/-- Witness for C6: column `a` passes (both sides 0, NaN does not exceed),
column `b` has previous 0 and current 50, a `+inf` ratio above the
threshold, so the combined verdict is the failure exit. -/
theorem c6_multi_column_aggregation_witness :
    validate
        (allRatios ⟨⟨["a", "b"], [⟨"Req", "x", fun c => if c = "b" then 0 else 1⟩]⟩,
          ⟨["a", "b"], [⟨"Req", "x", fun c => if c = "b" then 50 else 1⟩]⟩,
          ["a", "b"], 1⟩) 1 = ExitStatus.exitMsg failMsg ∧
      ∃ reads : List Ev,
        mainTrace ⟨⟨["a", "b"], [⟨"Req", "x", fun c => if c = "b" then 0 else 1⟩]⟩,
            ⟨["a", "b"], [⟨"Req", "x", fun c => if c = "b" then 50 else 1⟩]⟩,
            ["a", "b"], 1⟩ =
          reads ++ [Ev.render, Ev.procExit 1 (some failMsg)] :=
  c6_multi_column_aggregation
    ⟨⟨["a", "b"], [⟨"Req", "x", fun c => if c = "b" then 0 else 1⟩]⟩,
      ⟨["a", "b"], [⟨"Req", "x", fun c => if c = "b" then 50 else 1⟩]⟩,
      ["a", "b"], 1⟩
    (by decide) ⟨"b", by decide, RVal.posInf, by decide, by decide⟩

/-- C7: a requested column absent from either report's schema makes the run
fail: the trace ends in an exit with code 1 whose message names the
missing column, and the report rendering (and hence any verdict) is never
reached. -/
theorem c7_missing_column_fails (cfg : Config)
    (h : ∃ c ∈ cfg.columns, colOk cfg.current cfg.previous c = false) :
    ∃ (pre : List Ev) (c : String), c ∈ cfg.columns ∧
      colOk cfg.current cfg.previous c = false ∧
      mainTrace cfg = pre ++ [Ev.procExit 1 (some (keyErrorMsg c))] ∧
      (∃ a b : String, keyErrorMsg c = a ++ c ++ b) ∧
      Ev.render ∉ mainTrace cfg := by
  obtain ⟨pre, c, hc, hcf, heq, hnr⟩ :=
    mainLoop_missing cfg.current cfg.previous cfg.threshold cfg.columns [] h
  exact ⟨pre, c, hc, hcf, heq,
    ⟨"[" ++ c ++ "_new, ", "_old] not in index", rfl⟩, hnr⟩

/-- Witness for C7: requesting column `v` when the previous report only has
column `w`. -/
theorem c7_missing_column_fails_witness :
    ∃ (pre : List Ev) (c : String),
      c ∈ (⟨⟨["w"], []⟩, ⟨["v"], []⟩, ["v"], 1⟩ : Config).columns ∧
      colOk (⟨["v"], []⟩ : Report) (⟨["w"], []⟩ : Report) c = false ∧
      mainTrace ⟨⟨["w"], []⟩, ⟨["v"], []⟩, ["v"], 1⟩ =
        pre ++ [Ev.procExit 1 (some (keyErrorMsg c))] ∧
      (∃ a b : String, keyErrorMsg c = a ++ c ++ b) ∧
      Ev.render ∉ mainTrace ⟨⟨["w"], []⟩, ⟨["v"], []⟩, ["v"], 1⟩ :=
  c7_missing_column_fails ⟨⟨["w"], []⟩, ⟨["v"], []⟩, ["v"], 1⟩
    ⟨"v", by decide, by decide⟩

/-- C8 fails as stated: with two requested columns each report file is read
twice, not once — `compare` calls `pd.read_csv` on both files on every
invocation. -/
theorem c8_counterexample :
    (mainTrace c8cfg).countP isReadPrevious = 2 ∧
      (mainTrace c8cfg).countP isReadPrevious ≠ 1 ∧
      (mainTrace c8cfg).countP isReadCurrent = 2 ∧
      (mainTrace c8cfg).countP isReadCurrent ≠ 1 := by decide

/-- The read count of the main loop: one read of each file per requested
column still to process. -/
lemma mainLoop_countP (newR oldR : Report) (t : ℚ) (cols : List String) :
    ∀ acc : List RVal, (∀ c ∈ cols, colOk newR oldR c = true) →
      (mainLoop newR oldR t cols acc).countP isReadPrevious = cols.length ∧
      (mainLoop newR oldR t cols acc).countP isReadCurrent = cols.length := by
  induction cols with
  | nil =>
    intro acc h
    simp [mainLoop, List.countP_cons, exitEv, isReadPrevious, isReadCurrent]
  | cons c cs ih =>
    intro acc h
    have hc : colOk newR oldR c = true := h c (by simp)
    have hstep : mainLoop newR oldR t (c :: cs) acc =
        Ev.readCurrent :: Ev.readPrevious ::
          mainLoop newR oldR t cs (acc ++ compareRatios newR oldR c) := by
      simp [mainLoop, compare, hc]
    obtain ⟨ih1, ih2⟩ := ih (acc ++ compareRatios newR oldR c)
      (fun d hd => h d (by simp [hd]))
    rw [hstep]
    simp [List.countP_cons, isReadPrevious, isReadCurrent, ih1, ih2]

/-- C8 amended: each report file is read once per requested column (once
per `compare` call), so an invocation with N columns reads each input file
N times, not once. -/
theorem c8_reads_once_per_column (cfg : Config)
    (h : ∀ c ∈ cfg.columns, colOk cfg.current cfg.previous c = true) :
    (mainTrace cfg).countP isReadPrevious = cfg.columns.length ∧
      (mainTrace cfg).countP isReadCurrent = cfg.columns.length :=
  mainLoop_countP cfg.current cfg.previous cfg.threshold cfg.columns [] h

/-- Witness for C8's amended claim at the two-column invocation. -/
theorem c8_reads_once_per_column_witness :
    (mainTrace c8cfg).countP isReadPrevious = c8cfg.columns.length ∧
      (mainTrace c8cfg).countP isReadCurrent = c8cfg.columns.length :=
  c8_reads_once_per_column c8cfg (by decide)

/-- C10: in every run in which all requested columns exist, the report is
rendered immediately before `validate` decides the exit, so the HTML file
is produced for all three verdicts; and `validate` never returns — each of
its outcomes is a process exit event. -/
theorem c10_render_before_validate (cfg : Config)
    (h : ∀ c ∈ cfg.columns, colOk cfg.current cfg.previous c = true) :
    (∃ reads : List Ev, (∀ e ∈ reads, e = Ev.readCurrent ∨ e = Ev.readPrevious) ∧
      mainTrace cfg =
        reads ++ [Ev.render, exitEv (validate (allRatios cfg) cfg.threshold)]) ∧
      ∀ s : ExitStatus, exitEv s = Ev.procExit (exitCode s) (messageOf s) :=
  ⟨mainTrace_ok cfg h, fun _ => rfl⟩

/-- Witness for C10 at a one-column run over header-only reports. -/
theorem c10_render_before_validate_witness :
    (∃ reads : List Ev, (∀ e ∈ reads, e = Ev.readCurrent ∨ e = Ev.readPrevious) ∧
      mainTrace ⟨⟨["v"], []⟩, ⟨["v"], []⟩, ["v"], 1⟩ =
        reads ++ [Ev.render,
          exitEv (validate (allRatios ⟨⟨["v"], []⟩, ⟨["v"], []⟩, ["v"], 1⟩) 1)]) ∧
      ∀ s : ExitStatus, exitEv s = Ev.procExit (exitCode s) (messageOf s) :=
  c10_render_before_validate ⟨⟨["v"], []⟩, ⟨["v"], []⟩, ["v"], 1⟩ (by decide)

end LocustCompare
